import Mathlib

/-!
Shallow embedding of the provider-aggregation and result-reconciliation core
of the ckETH minter (`src/rs/ethereum/cketh/minter/src/eth_rpc_client/mod.rs`).

Modelling conventions:
* `RpcNodeProvider` is an opaque, totally ordered handle, modelled as `Nat`.
* Rust's `Result<JsonRpcResult<T>, HttpOutcallError>` (i.e.
  `HttpOutcallResult<JsonRpcResult<T>>`) is modelled with `Except`.
* `BTreeMap<RpcNodeProvider, _>` is modelled as an association list kept
  strictly sorted by key; `BTreeMap::from_iter` is `fromIterMap`, which
  inserts in input order, later entries replacing earlier ones with the
  same key, exactly as `BTreeMap` does.
* A `panic!` / `expect` / `unreachable` is modelled as `Option.none`; all
  functions that can panic in Rust return `Option` here.
* The async outcall layer is modelled by a pure oracle
  `call : RpcNodeProvider → Outcome T` giving each provider's outcome;
  the dispatch strategies fold over it. `sequential_call_until_ok`
  additionally returns the list of providers it actually invoked, so that
  short-circuiting is observable.
-/

namespace EthRpc

abbrev RpcNodeProvider := Nat

/-- Transport-level failure (kind + detail), an opaque equality-comparable
error from the HTTP outcall layer. -/
structure HttpOutcallError where
  kind : Nat
  detail : String
deriving DecidableEq, Repr

/-- `JsonRpcResult<T>`: a parsed JSON-RPC payload, either a success value or
a provider-reported error (numeric code + message). -/
inductive JsonRpcResult (T : Type) where
  | Result : T → JsonRpcResult T
  | Error : Int → String → JsonRpcResult T
deriving DecidableEq, Repr

instance {ε α : Type} [DecidableEq ε] [DecidableEq α] : DecidableEq (Except ε α)
  | .ok a, .ok b =>
    if h : a = b then .isTrue (by rw [h]) else .isFalse (by simp [h])
  | .ok _, .error _ => .isFalse (fun hc => Except.noConfusion hc)
  | .error _, .ok _ => .isFalse (fun hc => Except.noConfusion hc)
  | .error e, .error e' =>
    if h : e = e' then .isTrue (by rw [h]) else .isFalse (by simp [h])

/-- `HttpOutcallResult<T> = Result<T, HttpOutcallError>`. -/
abbrev HttpOutcallResult (T : Type) := Except HttpOutcallError T

/-- One per-provider outcome: transport failure, JSON-RPC success, or
JSON-RPC error. -/
abbrev Outcome (T : Type) := HttpOutcallResult (JsonRpcResult T)

/-- Whether an outcome is a transport-level success wrapping a JSON-RPC
success value (`Ok(JsonRpcResult::Result(_))`). -/
def isRpcSuccess {T : Type} : Outcome T → Bool
  | .ok (.Result _) => true
  | _ => false

/-- Modelled from the spec: the error-equivalence predicate
`are_errors_consistent` is declared in module `eth_rpc`, whose source file is
not part of this tree; per the spec it holds when the two outcomes are "the
same JSON-RPC code and message, or the same transport-failure
classification". -/
def are_errors_consistent {T : Type} : Outcome T → Outcome T → Bool
  | .ok (.Error c m), .ok (.Error c' m') => decide (c = c') && decide (m = m')
  | .error e, .error e' => decide (e = e')
  | _, _ => false

/-- Insert a binding into an association list sorted strictly by key,
replacing any existing binding of the same key (the `BTreeMap` insert). -/
def insertSorted {T : Type} (p : RpcNodeProvider) (o : Outcome T) :
    List (RpcNodeProvider × Outcome T) → List (RpcNodeProvider × Outcome T)
  | [] => [(p, o)]
  | (q, w) :: rest =>
    if p < q then (p, o) :: (q, w) :: rest
    else if p = q then (p, o) :: rest
    else (q, w) :: insertSorted p o rest

/-- `BTreeMap::from_iter`: build the sorted map by inserting the pairs in
input order (later duplicates overwrite earlier ones). -/
def fromIterMap {T : Type} (l : List (RpcNodeProvider × Outcome T)) :
    List (RpcNodeProvider × Outcome T) :=
  l.foldl (fun acc pr => insertSorted pr.1 pr.2 acc) []

/-- The `BTreeMap` invariant: keys strictly increasing along the list. -/
def SortedKeys {T : Type} (l : List (RpcNodeProvider × Outcome T)) : Prop :=
  l.Pairwise (fun a b => a.1 < b.1)

instance {T : Type} (l : List (RpcNodeProvider × Outcome T)) :
    Decidable (SortedKeys l) :=
  List.instDecidablePairwise l

/-- `MultiCallResults<T>`: responses of the different providers to one query,
a `BTreeMap<RpcNodeProvider, HttpOutcallResult<JsonRpcResult<T>>>`. -/
structure MultiCallResults (T : Type) where
  results : List (RpcNodeProvider × Outcome T)
deriving DecidableEq, Repr

/-- `MultiCallResults::from_non_empty_iter`; panics (here: `none`) when the
resulting map is empty. -/
def MultiCallResults.from_non_empty_iter {T : Type}
    (l : List (RpcNodeProvider × Outcome T)) : Option (MultiCallResults T) :=
  if (fromIterMap l).isEmpty then none else some ⟨fromIterMap l⟩

/-- `MultiCallError<T>`. -/
inductive MultiCallError (T : Type) where
  | ConsistentHttpOutcallError : HttpOutcallError → MultiCallError T
  | ConsistentJsonRpcError : Int → String → MultiCallError T
  | InconsistentResults : MultiCallResults T → MultiCallError T
deriving DecidableEq, Repr

/-- The terminal match of `all_ok` once the iteration is exhausted: echo the
first-error witness as a consistent error, or report all-success. The
`Some((_, Ok(Result _)))` arm is the `panic!("BUG: first_error should be an
error type")` branch, modelled as `none`. -/
def allOkFinish {T : Type} (succ : List (RpcNodeProvider × T)) :
    Option (RpcNodeProvider × Outcome T) →
    Option (Except (MultiCallError T) (List (RpcNodeProvider × T)))
  | none => some (.ok succ)
  | some (_, .ok (.Error code message)) =>
      some (.error (.ConsistentJsonRpcError code message))
  | some (_, .error e) => some (.error (.ConsistentHttpOutcallError e))
  | some (_, .ok (.Result _)) => none

/-- The loop of `MultiCallResults::all_ok`: walk the outcomes in key order,
collecting successes (the success `BTreeMap` receives keys in increasing
order, so insertion is an append) and tracking the first non-success outcome
as the error witness; a later non-success inconsistent with the witness
returns `InconsistentResults` with exactly those two entries. -/
def allOkGo {T : Type} :
    List (RpcNodeProvider × Outcome T) → List (RpcNodeProvider × T) →
    Option (RpcNodeProvider × Outcome T) →
    Option (Except (MultiCallError T) (List (RpcNodeProvider × T)))
  | [], succ, firstErr => allOkFinish succ firstErr
  | (p, r) :: rest, succ, firstErr =>
    match r with
    | .ok (.Result v) => allOkGo rest (succ ++ [(p, v)]) firstErr
    | r =>
      match firstErr with
      | none => allOkGo rest succ (some (p, r))
      | some (fp, fe) =>
        if are_errors_consistent fe r then allOkGo rest succ (some (fp, fe))
        else some (.error (.InconsistentResults
          ⟨fromIterMap [(fp, fe), (p, r)]⟩))

/-- `MultiCallResults::all_ok`. -/
def all_ok {T : Type} (s : MultiCallResults T) :
    Option (Except (MultiCallError T) (List (RpcNodeProvider × T))) :=
  allOkGo s.results [] none

/-- `MultiCallResults::reduce_with_equality`: after `all_ok`, take the first
success as baseline, collect every other success with a different value; if
any exist, return `InconsistentResults` of those plus the baseline, each
re-wrapped as `Ok(JsonRpcResult::Result(_))`; otherwise the baseline value.
The `.expect` on an empty success map is modelled as `none`. -/
def reduce_with_equality {T : Type} [DecidableEq T] (s : MultiCallResults T) :
    Option (Except (MultiCallError T) T) :=
  match all_ok s with
  | none => none
  | some (.error e) => some (.error e)
  | some (.ok l) =>
    match l with
    | [] => none
    | (bp, bv) :: rest =>
      let incons := rest.filter (fun pr => decide (pr.2 ≠ bv))
      if incons.isEmpty then some (.ok bv)
      else some (.error (.InconsistentResults
        ⟨fromIterMap ((incons ++ [(bp, bv)]).map
          (fun pr => (pr.1, Except.ok (JsonRpcResult.Result pr.2))))⟩))

/-- Rust `Iterator::min_by_key` over a list of values: the first element
whose key is minimal (ties keep the earlier element). -/
def minByKey {T K : Type} [LinearOrder K] (f : T → K) : List T → Option T
  | [] => none
  | x :: xs => some (xs.foldl (fun m y => if f y < f m then y else m) x)

/-- `MultiCallResults::reduce_with_min_by_key`: after `all_ok`, the success
value with minimal extracted key, the `BTreeMap::into_values` iteration being
key order. The `.expect` on an empty map is modelled as `none`. -/
def reduce_with_min_by_key {T K : Type} [LinearOrder K] (extractor : T → K)
    (s : MultiCallResults T) : Option (Except (MultiCallError T) T) :=
  match all_ok s with
  | none => none
  | some (.error e) => some (.error e)
  | some (.ok l) =>
    match minByKey extractor (l.map Prod.snd) with
    | none => none
    | some v => some (.ok v)

/-- The loop of `sequential_call_until_ok`: call providers in order; a
JSON-RPC success returns immediately, any other outcome is recorded as
`last_result` and the loop continues. Also returns the list of providers
actually invoked. The final `unwrap_or_else(panic)` is `none`. -/
def sequentialGo {T : Type} (call : RpcNodeProvider → Outcome T) :
    List RpcNodeProvider → Option (Outcome T) →
    Option (Outcome T) × List RpcNodeProvider
  | [], last => (last, [])
  | p :: rest, last =>
    match call p with
    | .ok (.Result v) => (some (.ok (.Result v)), [p])
    | r =>
      let next := sequentialGo call rest (some r)
      (next.1, p :: next.2)

/-- `EthRpcClient::sequential_call_until_ok` (fallback dispatch), with the
invocation trace made explicit. -/
def sequential_call_until_ok {T : Type} (call : RpcNodeProvider → Outcome T)
    (providers : List RpcNodeProvider) :
    Option (Outcome T) × List RpcNodeProvider :=
  sequentialGo call providers none

/-- `EthRpcClient::parallel_call` (broadcast dispatch): every provider is
queried and all outcomes are collected into a `MultiCallResults`. -/
def parallel_call {T : Type} (providers : List RpcNodeProvider)
    (call : RpcNodeProvider → Outcome T) : Option (MultiCallResults T) :=
  MultiCallResults.from_non_empty_iter (providers.map (fun p => (p, call p)))

/-- `EthRpcClient::eth_get_transaction_count`: broadcast-dispatches
`eth_getTransactionCount` and returns the raw `MultiCallResults` to the
caller. -/
def eth_get_transaction_count {T : Type} (providers : List RpcNodeProvider)
    (call : String → RpcNodeProvider → Outcome T) :
    Option (MultiCallResults T) :=
  parallel_call providers (call ("eth_getTransactionCount"))

/-- The first non-success entry of an outcome list, i.e. the error witness
`all_ok` tracks. -/
def firstNonSuccess {T : Type} (l : List (RpcNodeProvider × Outcome T)) :
    Option (RpcNodeProvider × Outcome T) :=
  l.find? (fun pr => !isRpcSuccess pr.2)

/-- The successes of an outcome list, with their providers, in order. -/
def extractOk {T : Type} :
    List (RpcNodeProvider × Outcome T) → List (RpcNodeProvider × T)
  | [] => []
  | (p, .ok (.Result v)) :: rest => (p, v) :: extractOk rest
  | _ :: rest => extractOk rest

/-- Invariant of the `first_error` register: when set, it holds a
non-success outcome. -/
def WitnessOk {T : Type} : Option (RpcNodeProvider × Outcome T) → Prop
  | none => True
  | some pr => isRpcSuccess pr.2 = false

/-- Wrap a list of per-provider success values as JSON-RPC success
outcomes. -/
def wrapOk {T : Type} (l : List (RpcNodeProvider × T)) :
    List (RpcNodeProvider × Outcome T) :=
  l.map (fun pr => (pr.1, Except.ok (JsonRpcResult.Result pr.2)))

/-- Concrete outcall oracle for the spec's fallback-dispatch example:
provider 1 fails at the transport level, provider 2 answers with a JSON-RPC
error, provider 3 answers with a JSON-RPC success. -/
def exCall1 : RpcNodeProvider → Outcome Nat := fun p =>
  if p = 1 then Except.error ⟨0, ("down")⟩
  else if p = 2 then Except.ok (JsonRpcResult.Error (-32000) ("nonce too low"))
  else Except.ok (JsonRpcResult.Result 42)

/-- Concrete oracle: provider 10 fails at transport, provider 20 succeeds. -/
def exCall2 : RpcNodeProvider → Outcome Nat := fun p =>
  if p = 20 then Except.ok (JsonRpcResult.Result 7)
  else Except.error ⟨7, ("timeout")⟩

/-- Concrete oracle with no JSON-RPC success anywhere. -/
def exCallFail : RpcNodeProvider → Outcome Nat := fun p =>
  if p = 20 then Except.error ⟨1, ("late")⟩ else Except.error ⟨0, ("down")⟩

/-- Concrete outcall oracle for `eth_getTransactionCount`: provider 1
reports count 5, provider 2 reports count 3. -/
def exCallTC : String → RpcNodeProvider → Outcome Nat := fun _ p =>
  if p = 1 then Except.ok (JsonRpcResult.Result 5)
  else Except.ok (JsonRpcResult.Result 3)

/-- Concrete inconsistent set: a JSON-RPC error against a transport
failure. -/
def sC3 : MultiCallResults Nat :=
  ⟨[(1, Except.ok (JsonRpcResult.Error (-32000) ("x"))),
    (2, Except.error ⟨0, ("t")⟩)]⟩

/-- Two providers reporting the same JSON-RPC error. -/
def sC7a : MultiCallResults Nat :=
  ⟨[(1, Except.ok (JsonRpcResult.Error (-32000) ("x"))),
    (2, Except.ok (JsonRpcResult.Error (-32000) ("x")))]⟩

/-- A JSON-RPC error against a transport timeout. -/
def sC7b : MultiCallResults Nat :=
  ⟨[(1, Except.ok (JsonRpcResult.Error (-32000) ("x"))),
    (2, Except.error ⟨1, ("timeout")⟩)]⟩

/-- Two providers disagreeing on the success value: 5 versus 3. -/
def sC4 : MultiCallResults Nat :=
  ⟨[(1, Except.ok (JsonRpcResult.Result 5)),
    (2, Except.ok (JsonRpcResult.Result 3))]⟩

/-! ### Lemmas about the sorted-map model of `BTreeMap` -/

theorem insertSorted_ne_nil {T : Type} (p : RpcNodeProvider) (o : Outcome T)
    (l : List (RpcNodeProvider × Outcome T)) : insertSorted p o l ≠ [] := by
  cases l with
  | nil => simp [insertSorted]
  | cons head tail =>
    obtain ⟨q, w⟩ := head
    simp only [insertSorted]
    split
    · simp
    · split
      · simp
      · simp

theorem mem_insertSorted {T : Type} {p : RpcNodeProvider} {o : Outcome T}
    {l : List (RpcNodeProvider × Outcome T)} {x : RpcNodeProvider × Outcome T}
    (hx : x ∈ insertSorted p o l) : x = (p, o) ∨ x ∈ l := by
  induction l with
  | nil => simpa [insertSorted] using hx
  | cons head tail ih =>
    obtain ⟨q, w⟩ := head
    simp only [insertSorted] at hx
    split at hx
    · simpa using hx
    · split at hx
      · rcases (List.mem_cons).1 hx with h | h
        · exact Or.inl h
        · exact Or.inr (List.mem_cons_of_mem _ h)
      · rcases (List.mem_cons).1 hx with h | h
        · exact Or.inr (h ▸ List.mem_cons_self _ _)
        · rcases ih h with h' | h'
          · exact Or.inl h'
          · exact Or.inr (List.mem_cons_of_mem _ h')

theorem insertSorted_perm {T : Type} {p : RpcNodeProvider} {o : Outcome T}
    {l : List (RpcNodeProvider × Outcome T)} (h : p ∉ l.map Prod.fst) :
    List.Perm (insertSorted p o l) ((p, o) :: l) := by
  induction l with
  | nil => simp [insertSorted]
  | cons head tail ih =>
    obtain ⟨q, w⟩ := head
    simp only [List.map_cons, List.mem_cons] at h
    push_neg at h
    obtain ⟨hpq, htail⟩ := h
    by_cases h1 : p < q
    · simp only [insertSorted, if_pos h1]
      exact List.Perm.refl _
    · simp only [insertSorted, if_neg h1, if_neg hpq]
      exact List.Perm.trans (List.Perm.cons _ (ih htail))
        (List.Perm.swap _ _ _)

theorem insertSorted_sorted {T : Type} {l : List (RpcNodeProvider × Outcome T)}
    (hs : SortedKeys l) (p : RpcNodeProvider) (o : Outcome T) :
    SortedKeys (insertSorted p o l) := by
  induction l with
  | nil => simp [insertSorted, SortedKeys]
  | cons head tail ih =>
    obtain ⟨q, w⟩ := head
    rw [SortedKeys, List.pairwise_cons] at hs
    obtain ⟨hq, htail⟩ := hs
    by_cases h1 : p < q
    · simp only [insertSorted, if_pos h1]
      rw [SortedKeys, List.pairwise_cons]
      refine ⟨?_, List.pairwise_cons.2 ⟨hq, htail⟩⟩
      intro x hx
      rcases (List.mem_cons).1 hx with h | h
      · exact h ▸ h1
      · exact lt_trans h1 (hq x h)
    · by_cases h2 : p = q
      · simp only [insertSorted, if_neg h1, if_pos h2]
        rw [SortedKeys, List.pairwise_cons]
        exact ⟨fun x hx => h2 ▸ hq x hx, htail⟩
      · simp only [insertSorted, if_neg h1, if_neg h2]
        rw [SortedKeys, List.pairwise_cons]
        refine ⟨?_, ih htail⟩
        intro x hx
        rcases mem_insertSorted hx with h | h
        · subst h
          show q < p
          exact lt_of_le_of_ne (Nat.le_of_not_lt h1) (Ne.symm h2)
        · exact hq x h

theorem foldl_insert_sorted {T : Type} :
    ∀ (l acc : List (RpcNodeProvider × Outcome T)), SortedKeys acc →
      SortedKeys (l.foldl (fun acc pr => insertSorted pr.1 pr.2 acc) acc)
  | [], _, h => h
  | x :: xs, acc, h => foldl_insert_sorted xs _ (insertSorted_sorted h x.1 x.2)

theorem fromIterMap_sorted {T : Type} (l : List (RpcNodeProvider × Outcome T)) :
    SortedKeys (fromIterMap l) :=
  foldl_insert_sorted l [] (by simp [SortedKeys])

theorem foldl_insert_ne_nil {T : Type} :
    ∀ (l acc : List (RpcNodeProvider × Outcome T)), acc ≠ [] →
      l.foldl (fun acc pr => insertSorted pr.1 pr.2 acc) acc ≠ []
  | [], _, h => h
  | x :: xs, acc, _ =>
      foldl_insert_ne_nil xs _ (insertSorted_ne_nil x.1 x.2 acc)

theorem fromIterMap_eq_nil_iff {T : Type}
    (l : List (RpcNodeProvider × Outcome T)) : fromIterMap l = [] ↔ l = [] := by
  constructor
  · intro h
    cases l with
    | nil => rfl
    | cons x xs =>
      exact absurd h
        (foldl_insert_ne_nil xs _ (insertSorted_ne_nil x.1 x.2 []))
  · intro h
    subst h
    rfl

theorem foldl_insert_perm {T : Type} :
    ∀ (l acc : List (RpcNodeProvider × Outcome T)),
      ((acc ++ l).map Prod.fst).Nodup →
      List.Perm (l.foldl (fun acc pr => insertSorted pr.1 pr.2 acc) acc)
        (acc ++ l) := by
  intro l
  induction l with
  | nil => intro acc _; simp
  | cons x xs ih =>
    intro acc h
    obtain ⟨p, o⟩ := x
    have hperm0 : List.Perm (acc ++ (p, o) :: xs) ((p, o) :: (acc ++ xs)) :=
      List.perm_middle
    have hnd : (((p, o) :: (acc ++ xs)).map Prod.fst).Nodup :=
      ((hperm0.map Prod.fst).nodup_iff).1 h
    simp only [List.map_cons, List.nodup_cons, List.map_append,
      List.mem_append, List.mem_map] at hnd
    push_neg at hnd
    obtain ⟨⟨hacc, hxs⟩, hnd'⟩ := hnd
    have hpacc : p ∉ acc.map Prod.fst := by
      simp only [List.mem_map]
      push_neg
      exact hacc
    have hinsp : List.Perm (insertSorted p o acc) ((p, o) :: acc) :=
      insertSorted_perm hpacc
    have hnd2 : ((insertSorted p o acc ++ xs).map Prod.fst).Nodup := by
      have hp2 : List.Perm ((insertSorted p o acc ++ xs).map Prod.fst)
          ((((p, o) :: acc) ++ xs).map Prod.fst) :=
        (hinsp.append_right xs).map Prod.fst
      rw [hp2.nodup_iff]
      simp only [List.cons_append, List.map_cons, List.nodup_cons,
        List.map_append, List.mem_append, List.mem_map]
      push_neg
      refine ⟨⟨hacc, hxs⟩, ?_⟩
      exact hnd'
    have h1 := ih (insertSorted p o acc) hnd2
    refine List.Perm.trans h1 ?_
    refine List.Perm.trans (hinsp.append_right xs) ?_
    exact List.Perm.trans (List.Perm.refl _) hperm0.symm

theorem fromIterMap_perm {T : Type} {l : List (RpcNodeProvider × Outcome T)}
    (h : (l.map Prod.fst).Nodup) : List.Perm (fromIterMap l) l := by
  simpa using foldl_insert_perm l [] (by simpa)

theorem sortedKeys_eq_of_perm {T : Type}
    {l1 l2 : List (RpcNodeProvider × Outcome T)} (h1 : SortedKeys l1)
    (h2 : SortedKeys l2) (hp : List.Perm l1 l2) : l1 = l2 := by
  haveI : IsAntisymm (RpcNodeProvider × Outcome T)
      (fun a b => a.1 < b.1) :=
    ⟨fun a b hab hba => absurd (lt_trans hab hba) (lt_irrefl _)⟩
  exact List.eq_of_perm_of_sorted hp h1 h2

theorem sortedKeys_nodup_keys {T : Type}
    {l : List (RpcNodeProvider × Outcome T)} (h : SortedKeys l) :
    (l.map Prod.fst).Nodup := by
  have hne : l.Pairwise (fun a b => a.1 ≠ b.1) :=
    h.imp (fun hab => ne_of_lt hab)
  exact (List.pairwise_map).2 hne

theorem fromIterMap_eq_of_perm {T : Type}
    {l1 l2 : List (RpcNodeProvider × Outcome T)} (h : (l1.map Prod.fst).Nodup)
    (hp : List.Perm l1 l2) : fromIterMap l1 = fromIterMap l2 := by
  have h2 : (l2.map Prod.fst).Nodup := ((hp.map Prod.fst).nodup_iff).1 h
  exact sortedKeys_eq_of_perm (fromIterMap_sorted l1) (fromIterMap_sorted l2)
    (((fromIterMap_perm h).trans hp).trans (fromIterMap_perm h2).symm)

theorem fromIterMap_sorted_id {T : Type}
    {l : List (RpcNodeProvider × Outcome T)} (h : SortedKeys l) :
    fromIterMap l = l :=
  sortedKeys_eq_of_perm (fromIterMap_sorted l) h
    (fromIterMap_perm (sortedKeys_nodup_keys h))

theorem mem_fromIterMap_iff {T : Type}
    {l : List (RpcNodeProvider × Outcome T)} {x : RpcNodeProvider × Outcome T}
    (h : (l.map Prod.fst).Nodup) : x ∈ fromIterMap l ↔ x ∈ l :=
  (fromIterMap_perm h).mem_iff

theorem length_fromIterMap {T : Type}
    {l : List (RpcNodeProvider × Outcome T)} (h : (l.map Prod.fst).Nodup) :
    (fromIterMap l).length = l.length :=
  (fromIterMap_perm h).length_eq

theorem fromIterMap_pair {T : Type} {fp p : RpcNodeProvider}
    {fe r : Outcome T} (h : fp < p) :
    fromIterMap [(fp, fe), (p, r)] = [(fp, fe), (p, r)] := by
  have h1 : ¬p < fp := Nat.lt_asymm h
  have h2 : ¬p = fp := fun he => absurd (he ▸ h) (lt_irrefl _)
  simp [fromIterMap, insertSorted, h1, h2]

/-! ### Lemmas about the error-consistency predicate -/

theorem are_errors_consistent_jsonrpc {T : Type} {c : Int} {m : String}
    {x : Outcome T}
    (h : are_errors_consistent (Except.ok (JsonRpcResult.Error c m)) x = true) :
    x = Except.ok (JsonRpcResult.Error c m) := by
  cases x with
  | ok j =>
    cases j with
    | Result v => simp [are_errors_consistent] at h
    | Error c' m' =>
      simp only [are_errors_consistent, Bool.and_eq_true, decide_eq_true_eq] at h
      rw [h.1, h.2]
  | error e => simp [are_errors_consistent] at h

theorem are_errors_consistent_transport {T : Type} {e : HttpOutcallError}
    {x : Outcome T}
    (h : are_errors_consistent ((Except.error e : Outcome T)) x = true) :
    x = Except.error e := by
  cases x with
  | ok j =>
    cases j with
    | Result v => simp [are_errors_consistent] at h
    | Error c' m' => simp [are_errors_consistent] at h
  | error e' =>
    simp only [are_errors_consistent, decide_eq_true_eq] at h
    rw [h]

theorem are_errors_consistent_rfl {T : Type} {r : Outcome T}
    (h : isRpcSuccess r = false) : are_errors_consistent r r = true := by
  cases r with
  | ok j =>
    cases j with
    | Result v => simp [isRpcSuccess] at h
    | Error c m => simp [are_errors_consistent]
  | error e => simp [are_errors_consistent]

/-! ### Lemmas about `all_ok` -/

theorem allOkFinish_ne_none {T : Type} {succ : List (RpcNodeProvider × T)}
    {ferr : Option (RpcNodeProvider × Outcome T)} (h : WitnessOk ferr) :
    allOkFinish succ ferr ≠ none := by
  cases ferr with
  | none => simp [allOkFinish]
  | some pr =>
    obtain ⟨fp, fe⟩ := pr
    cases fe with
    | ok j =>
      cases j with
      | Result v => simp [WitnessOk, isRpcSuccess] at h
      | Error c m => simp [allOkFinish]
    | error e => simp [allOkFinish]

theorem allOkGo_ne_none {T : Type} :
    ∀ (pending : List (RpcNodeProvider × Outcome T))
      (succ : List (RpcNodeProvider × T))
      (ferr : Option (RpcNodeProvider × Outcome T)), WitnessOk ferr →
      allOkGo pending succ ferr ≠ none := by
  intro pending
  induction pending with
  | nil => intro succ ferr h; exact allOkFinish_ne_none h
  | cons head rest ih =>
    intro succ ferr h
    obtain ⟨p, r⟩ := head
    cases r with
    | ok j =>
      cases j with
      | Result v => exact ih _ _ h
      | Error c m =>
        cases ferr with
        | none =>
          simp only [allOkGo]
          exact ih _ _ (by simp [WitnessOk, isRpcSuccess])
        | some w =>
          obtain ⟨fp, fe⟩ := w
          simp only [allOkGo]
          by_cases hc : are_errors_consistent fe (Except.ok (JsonRpcResult.Error c m)) = true
          · simp only [hc, if_true]
            exact ih _ _ h
          · simp only [hc, if_false]
            simp
    | error e =>
      cases ferr with
      | none =>
        simp only [allOkGo]
        exact ih _ _ (by simp [WitnessOk, isRpcSuccess])
      | some w =>
        obtain ⟨fp, fe⟩ := w
        simp only [allOkGo]
        by_cases hc : are_errors_consistent fe (Except.error e) = true
        · simp only [hc, if_true]
          exact ih _ _ h
        · simp only [hc, if_false]
          simp

theorem extractOk_wrapOk {T : Type} (l : List (RpcNodeProvider × T)) :
    extractOk (wrapOk l) = l := by
  induction l with
  | nil => rfl
  | cons head rest ih =>
    obtain ⟨p, v⟩ := head
    simp only [wrapOk, List.map_cons] at *
    simp [extractOk, ih]

theorem wrapOk_extractOk {T : Type} :
    ∀ {l : List (RpcNodeProvider × Outcome T)},
      (∀ pr ∈ l, isRpcSuccess pr.2 = true) → wrapOk (extractOk l) = l := by
  intro l
  induction l with
  | nil => intro _; rfl
  | cons head rest ih =>
    intro h
    obtain ⟨p, r⟩ := head
    have hr : isRpcSuccess r = true := h (p, r) (List.mem_cons_self _ _)
    cases r with
    | ok j =>
      cases j with
      | Result v =>
        simp only [extractOk, wrapOk, List.map_cons]
        have := ih (fun pr hpr => h pr (List.mem_cons_of_mem _ hpr))
        simp only [wrapOk] at this
        rw [this]
      | Error c m => simp [isRpcSuccess] at hr
    | error e => simp [isRpcSuccess] at hr

theorem allOkGo_wrapOk {T : Type} :
    ∀ (l : List (RpcNodeProvider × T)) (succ : List (RpcNodeProvider × T))
      (ferr : Option (RpcNodeProvider × Outcome T)),
      allOkGo (wrapOk l) succ ferr = allOkFinish (succ ++ l) ferr := by
  intro l
  induction l with
  | nil => intro succ ferr; simp [wrapOk, allOkGo]
  | cons head rest ih =>
    intro succ ferr
    obtain ⟨p, v⟩ := head
    simp only [wrapOk, List.map_cons, allOkGo]
    have := ih (succ ++ [(p, v)]) ferr
    simp only [wrapOk] at this
    rw [this, List.append_assoc]
    rfl

/-- `all_ok` on an all-success outcome set returns the successes in
provider order. -/
theorem all_ok_of_all_success {T : Type} {s : MultiCallResults T}
    (h : ∀ pr ∈ s.results, isRpcSuccess pr.2 = true) :
    all_ok s = some (.ok (extractOk s.results)) := by
  have hw := wrapOk_extractOk h
  show allOkGo s.results [] none = _
  conv_lhs => rw [← hw]
  rw [allOkGo_wrapOk]
  rfl

theorem allOkGo_some_witness_ne_ok {T : Type} :
    ∀ (pending : List (RpcNodeProvider × Outcome T))
      (succ : List (RpcNodeProvider × T)) (w : RpcNodeProvider × Outcome T)
      (l : List (RpcNodeProvider × T)),
      allOkGo pending succ (some w) ≠ some (.ok l) := by
  intro pending
  induction pending with
  | nil =>
    intro succ w l
    obtain ⟨fp, fe⟩ := w
    cases fe with
    | ok j =>
      cases j with
      | Result v => simp [allOkGo, allOkFinish]
      | Error c m => simp [allOkGo, allOkFinish]
    | error e => simp [allOkGo, allOkFinish]
  | cons head rest ih =>
    intro succ w l
    obtain ⟨p, r⟩ := head
    obtain ⟨fp, fe⟩ := w
    cases r with
    | ok j =>
      cases j with
      | Result v => exact ih _ _ _
      | Error c m =>
        simp only [allOkGo]
        by_cases hc : are_errors_consistent fe (Except.ok (JsonRpcResult.Error c m)) = true
        · simp only [hc, if_true]
          exact ih _ _ _
        · simp only [hc, if_false]
          simp
    | error e =>
      simp only [allOkGo]
      by_cases hc : are_errors_consistent fe (Except.error e) = true
      · simp only [hc, if_true]
        exact ih _ _ _
      · simp only [hc, if_false]
        simp

/-- If `all_ok`'s loop reports all-success, every pending outcome really was
a JSON-RPC success. -/
theorem allOkGo_ok_imp {T : Type} :
    ∀ (pending : List (RpcNodeProvider × Outcome T))
      (succ : List (RpcNodeProvider × T))
      (ferr : Option (RpcNodeProvider × Outcome T))
      (l : List (RpcNodeProvider × T)),
      allOkGo pending succ ferr = some (.ok l) →
      ∀ pr ∈ pending, isRpcSuccess pr.2 = true := by
  intro pending
  induction pending with
  | nil => intro succ ferr l _ pr hpr; exact absurd hpr (List.not_mem_nil _)
  | cons head rest ih =>
    intro succ ferr l h pr hpr
    obtain ⟨p, r⟩ := head
    cases r with
    | ok j =>
      cases j with
      | Result v =>
        rcases (List.mem_cons).1 hpr with he | he
        · rw [he]; simp [isRpcSuccess]
        · exact ih _ _ _ h pr he
      | Error c m =>
        exfalso
        cases ferr with
        | none => exact allOkGo_some_witness_ne_ok rest succ _ l h
        | some w =>
          obtain ⟨fp, fe⟩ := w
          simp only [allOkGo] at h
          by_cases hc : are_errors_consistent fe (Except.ok (JsonRpcResult.Error c m)) = true
          · rw [if_pos hc] at h
            exact allOkGo_some_witness_ne_ok rest succ _ l h
          · rw [if_neg hc] at h
            simp at h
    | error e =>
      exfalso
      cases ferr with
      | none => exact allOkGo_some_witness_ne_ok rest succ _ l h
      | some w =>
        obtain ⟨fp, fe⟩ := w
        simp only [allOkGo] at h
        by_cases hc : are_errors_consistent fe (Except.error e) = true
        · rw [if_pos hc] at h
          exact allOkGo_some_witness_ne_ok rest succ _ l h
        · rw [if_neg hc] at h
          simp at h

/-- A run that ends in a `Consistent…` verdict echoes its witness: the
verdict is `allOkFinish` of the witness, and every later non-success outcome
was consistent with the witness. -/
theorem allOkGo_consistent_witness {T : Type} :
    ∀ (pending : List (RpcNodeProvider × Outcome T))
      (succ : List (RpcNodeProvider × T)) (fp : RpcNodeProvider)
      (fe : Outcome T) (err : MultiCallError T),
      allOkGo pending succ (some (fp, fe)) = some (.error err) →
      (∀ m', err ≠ MultiCallError.InconsistentResults m') →
      allOkFinish ([] : List (RpcNodeProvider × T)) (some (fp, fe)) =
        some (.error err) ∧
      ∀ pr ∈ pending, isRpcSuccess pr.2 = false →
        are_errors_consistent fe pr.2 = true := by
  intro pending
  induction pending with
  | nil =>
    intro succ fp fe err h _
    refine ⟨?_, fun pr hpr _ => absurd hpr (List.not_mem_nil _)⟩
    cases fe with
    | ok j =>
      cases j with
      | Result v => simp [allOkGo, allOkFinish] at h
      | Error c m =>
        simp only [allOkGo, allOkFinish] at h ⊢
        exact h
    | error e =>
      simp only [allOkGo, allOkFinish] at h ⊢
      exact h
  | cons head rest ih =>
    intro succ fp fe err h hne
    obtain ⟨p, r⟩ := head
    cases r with
    | ok j =>
      cases j with
      | Result v =>
        obtain ⟨h1, h2⟩ := ih _ fp fe err h hne
        refine ⟨h1, ?_⟩
        intro pr hpr hns
        rcases (List.mem_cons).1 hpr with he | he
        · rw [he] at hns; simp [isRpcSuccess] at hns
        · exact h2 pr he hns
      | Error c m =>
        simp only [allOkGo] at h
        by_cases hc : are_errors_consistent fe (Except.ok (JsonRpcResult.Error c m)) = true
        · rw [if_pos hc] at h
          obtain ⟨h1, h2⟩ := ih _ fp fe err h hne
          refine ⟨h1, ?_⟩
          intro pr hpr hns
          rcases (List.mem_cons).1 hpr with he | he
          · rw [he]; exact hc
          · exact h2 pr he hns
        · rw [if_neg hc] at h
          simp only [Option.some.injEq, Except.error.injEq] at h
          exact absurd h.symm (hne _)
    | error e =>
      simp only [allOkGo] at h
      by_cases hc : are_errors_consistent fe (Except.error e) = true
      · rw [if_pos hc] at h
        obtain ⟨h1, h2⟩ := ih _ fp fe err h hne
        refine ⟨h1, ?_⟩
        intro pr hpr hns
        rcases (List.mem_cons).1 hpr with he | he
        · rw [he]; exact hc
        · exact h2 pr he hns
      · rw [if_neg hc] at h
        simp only [Option.some.injEq, Except.error.injEq] at h
        exact absurd h.symm (hne _)

/-- A `Consistent…` verdict from a fresh run pins down the first non-success
outcome as the witness the verdict echoes, all later non-success outcomes
being consistent with it. -/
theorem allOkGo_none_consistent {T : Type} :
    ∀ (pending : List (RpcNodeProvider × Outcome T))
      (succ : List (RpcNodeProvider × T)) (err : MultiCallError T),
      allOkGo pending succ none = some (.error err) →
      (∀ m', err ≠ MultiCallError.InconsistentResults m') →
      ∃ fp fe, firstNonSuccess pending = some (fp, fe) ∧
        allOkFinish ([] : List (RpcNodeProvider × T)) (some (fp, fe)) =
          some (.error err) ∧
        ∀ pr ∈ pending, isRpcSuccess pr.2 = false →
          are_errors_consistent fe pr.2 = true := by
  intro pending
  induction pending with
  | nil => intro succ err h _; simp [allOkGo, allOkFinish] at h
  | cons head rest ih =>
    intro succ err h hne
    obtain ⟨p, r⟩ := head
    cases hr : isRpcSuccess r with
    | true =>
      have hrr : ∃ v, r = Except.ok (JsonRpcResult.Result v) := by
        cases r with
        | ok j =>
          cases j with
          | Result v => exact ⟨v, rfl⟩
          | Error c m => simp [isRpcSuccess] at hr
        | error e => simp [isRpcSuccess] at hr
      obtain ⟨v, rfl⟩ := hrr
      obtain ⟨fp, fe, h1, h2, h3⟩ := ih _ err h hne
      refine ⟨fp, fe, ?_, h2, ?_⟩
      · simp [firstNonSuccess, List.find?, isRpcSuccess] at h1 ⊢
        exact h1
      · intro pr hpr hns
        rcases (List.mem_cons).1 hpr with he | he
        · rw [he] at hns; simp [isRpcSuccess] at hns
        · exact h3 pr he hns
    | false =>
      have hstep : allOkGo ((p, r) :: rest) succ none =
          allOkGo rest succ (some (p, r)) := by
        cases r with
        | ok j =>
          cases j with
          | Result v => simp [isRpcSuccess] at hr
          | Error c m => rfl
        | error e => rfl
      rw [hstep] at h
      obtain ⟨h1, h2⟩ := allOkGo_consistent_witness rest succ p r err h hne
      refine ⟨p, r, ?_, h1, ?_⟩
      · simp [firstNonSuccess, List.find?, hr]
      · intro pr hpr hns
        rcases (List.mem_cons).1 hpr with he | he
        · rw [he]; exact are_errors_consistent_rfl hr
        · exact h2 pr he hns

/-- If every remaining non-success outcome is the same JSON-RPC error as the
witness, the run ends with `ConsistentJsonRpcError` of that code/message. -/
theorem allOkGo_same_json {T : Type} :
    ∀ (pending : List (RpcNodeProvider × Outcome T))
      (succ : List (RpcNodeProvider × T)) (fp : RpcNodeProvider) (c : Int)
      (m : String),
      (∀ pr ∈ pending, isRpcSuccess pr.2 = false →
        pr.2 = Except.ok (JsonRpcResult.Error c m)) →
      allOkGo pending succ (some (fp, Except.ok (JsonRpcResult.Error c m))) =
        some (.error (.ConsistentJsonRpcError c m)) := by
  intro pending
  induction pending with
  | nil => intro succ fp c m _; rfl
  | cons head rest ih =>
    intro succ fp c m h
    obtain ⟨p, r⟩ := head
    cases r with
    | ok j =>
      cases j with
      | Result v =>
        exact ih _ fp c m (fun pr hpr => h pr (List.mem_cons_of_mem _ hpr))
      | Error c' m' =>
        have he := h (p, Except.ok (JsonRpcResult.Error c' m'))
          (List.mem_cons_self _ _) (by simp [isRpcSuccess])
        simp only [Except.ok.injEq, JsonRpcResult.Error.injEq] at he
        obtain ⟨hc', hm'⟩ := he
        rw [hc', hm']
        simp only [allOkGo, are_errors_consistent, decide_True,
          Bool.and_self, if_true]
        exact ih _ fp c m (fun pr hpr => h pr (List.mem_cons_of_mem _ hpr))
    | error e =>
      have he := h (p, Except.error e) (List.mem_cons_self _ _)
        (by simp [isRpcSuccess])
      exact absurd he (by simp)

/-- If at least one outcome is a non-success and every non-success outcome is
the same JSON-RPC error, a fresh run ends with `ConsistentJsonRpcError`. -/
theorem allOkGo_none_same_json {T : Type} :
    ∀ (pending : List (RpcNodeProvider × Outcome T))
      (succ : List (RpcNodeProvider × T)) (c : Int) (m : String),
      (∀ pr ∈ pending, isRpcSuccess pr.2 = false →
        pr.2 = Except.ok (JsonRpcResult.Error c m)) →
      (∃ pr ∈ pending, isRpcSuccess pr.2 = false) →
      allOkGo pending succ none =
        some (.error (.ConsistentJsonRpcError c m)) := by
  intro pending
  induction pending with
  | nil => intro succ c m _ hex; obtain ⟨pr, hpr, _⟩ := hex; simp at hpr
  | cons head rest ih =>
    intro succ c m h hex
    obtain ⟨p, r⟩ := head
    cases r with
    | ok j =>
      cases j with
      | Result v =>
        refine ih _ c m (fun pr hpr => h pr (List.mem_cons_of_mem _ hpr)) ?_
        obtain ⟨pr, hpr, hns⟩ := hex
        rcases (List.mem_cons).1 hpr with he | he
        · rw [he] at hns; simp [isRpcSuccess] at hns
        · exact ⟨pr, he, hns⟩
      | Error c' m' =>
        have he := h (p, Except.ok (JsonRpcResult.Error c' m'))
          (List.mem_cons_self _ _) (by simp [isRpcSuccess])
        simp only [Except.ok.injEq, JsonRpcResult.Error.injEq] at he
        obtain ⟨hc', hm'⟩ := he
        rw [hc', hm']
        show allOkGo rest succ
          (some (p, Except.ok (JsonRpcResult.Error c m))) = _
        exact allOkGo_same_json rest succ p c m
          (fun pr hpr => h pr (List.mem_cons_of_mem _ hpr))
    | error e =>
      have he := h (p, Except.error e) (List.mem_cons_self _ _)
        (by simp [isRpcSuccess])
      exact absurd he (by simp)

/-- An `InconsistentResults` verdict produced while a witness is registered
carries exactly the witness and one conflicting later outcome. -/
theorem allOkGo_witness_inconsistent {T : Type} :
    ∀ (pending : List (RpcNodeProvider × Outcome T))
      (succ : List (RpcNodeProvider × T)) (fp : RpcNodeProvider)
      (fe : Outcome T) (m' : MultiCallResults T),
      (∀ pr ∈ pending, fp < pr.1) →
      allOkGo pending succ (some (fp, fe)) =
        some (.error (.InconsistentResults m')) →
      ∃ p r, (p, r) ∈ pending ∧ isRpcSuccess r = false ∧
        are_errors_consistent fe r = false ∧
        m' = ⟨[(fp, fe), (p, r)]⟩ := by
  intro pending
  induction pending with
  | nil =>
    intro succ fp fe m' _ h
    cases fe with
    | ok j =>
      cases j with
      | Result v => simp [allOkGo, allOkFinish] at h
      | Error c m => simp [allOkGo, allOkFinish] at h
    | error e => simp [allOkGo, allOkFinish] at h
  | cons head rest ih =>
    intro succ fp fe m' hlt h
    obtain ⟨p, r⟩ := head
    cases hr : isRpcSuccess r with
    | true =>
      have hrr : ∃ v, r = Except.ok (JsonRpcResult.Result v) := by
        cases r with
        | ok j =>
          cases j with
          | Result v => exact ⟨v, rfl⟩
          | Error c m => simp [isRpcSuccess] at hr
        | error e => simp [isRpcSuccess] at hr
      obtain ⟨v, rfl⟩ := hrr
      obtain ⟨p', r', hmem, hns, hcon, hm⟩ :=
        ih _ fp fe m' (fun pr hpr => hlt pr (List.mem_cons_of_mem _ hpr)) h
      exact ⟨p', r', List.mem_cons_of_mem _ hmem, hns, hcon, hm⟩
    | false =>
      have hstep : allOkGo ((p, r) :: rest) succ (some (fp, fe)) =
          if are_errors_consistent fe r = true then
            allOkGo rest succ (some (fp, fe))
          else some (.error (.InconsistentResults
            ⟨fromIterMap [(fp, fe), (p, r)]⟩)) := by
        cases r with
        | ok j =>
          cases j with
          | Result v => simp [isRpcSuccess] at hr
          | Error c m => rfl
        | error e => rfl
      rw [hstep] at h
      by_cases hc : are_errors_consistent fe r = true
      · rw [if_pos hc] at h
        obtain ⟨p', r', hmem, hns, hcon, hm⟩ :=
          ih _ fp fe m' (fun pr hpr => hlt pr (List.mem_cons_of_mem _ hpr)) h
        exact ⟨p', r', List.mem_cons_of_mem _ hmem, hns, hcon, hm⟩
      · rw [if_neg hc] at h
        simp only [Option.some.injEq, Except.error.injEq,
          MultiCallError.InconsistentResults.injEq] at h
        refine ⟨p, r, List.mem_cons_self _ _, hr, by simpa using hc, ?_⟩
        rw [← h, fromIterMap_pair (hlt (p, r) (List.mem_cons_self _ _))]

/-- An `InconsistentResults` verdict from a fresh, key-sorted run carries
exactly the first non-success outcome and one conflicting later outcome. -/
theorem allOkGo_none_inconsistent {T : Type} :
    ∀ (pending : List (RpcNodeProvider × Outcome T))
      (succ : List (RpcNodeProvider × T)) (m' : MultiCallResults T),
      SortedKeys pending →
      allOkGo pending succ none =
        some (.error (.InconsistentResults m')) →
      ∃ fp fe p r, firstNonSuccess pending = some (fp, fe) ∧
        (p, r) ∈ pending ∧ isRpcSuccess r = false ∧
        are_errors_consistent fe r = false ∧
        m' = ⟨[(fp, fe), (p, r)]⟩ := by
  intro pending
  induction pending with
  | nil => intro succ m' _ h; simp [allOkGo, allOkFinish] at h
  | cons head rest ih =>
    intro succ m' hs h
    obtain ⟨p, r⟩ := head
    rw [SortedKeys, List.pairwise_cons] at hs
    obtain ⟨hlt, hrest⟩ := hs
    cases hr : isRpcSuccess r with
    | true =>
      have hrr : ∃ v, r = Except.ok (JsonRpcResult.Result v) := by
        cases r with
        | ok j =>
          cases j with
          | Result v => exact ⟨v, rfl⟩
          | Error c m => simp [isRpcSuccess] at hr
        | error e => simp [isRpcSuccess] at hr
      obtain ⟨v, rfl⟩ := hrr
      obtain ⟨fp, fe, p', r', h1, h2, h3, h4, h5⟩ := ih _ m' hrest h
      refine ⟨fp, fe, p', r', ?_, List.mem_cons_of_mem _ h2, h3, h4, h5⟩
      simp [firstNonSuccess, List.find?, isRpcSuccess] at h1 ⊢
      exact h1
    | false =>
      have hstep : allOkGo ((p, r) :: rest) succ none =
          allOkGo rest succ (some (p, r)) := by
        cases r with
        | ok j =>
          cases j with
          | Result v => simp [isRpcSuccess] at hr
          | Error c m => rfl
        | error e => rfl
      rw [hstep] at h
      obtain ⟨p', r', hmem, hns, hcon, hm⟩ :=
        allOkGo_witness_inconsistent rest succ p r m' hlt h
      refine ⟨p, r, p', r', ?_, List.mem_cons_of_mem _ hmem, hns, hcon, hm⟩
      simp [firstNonSuccess, List.find?, hr]

/-! ### Lemmas about fallback dispatch -/

theorem sequentialGo_no_success {T : Type} (call : RpcNodeProvider → Outcome T) :
    ∀ (providers : List RpcNodeProvider) (r : Outcome T),
      (∀ p ∈ providers, isRpcSuccess (call p) = false) →
      sequentialGo call providers (some r) =
        (some ((providers.map call).getLastD r), providers) := by
  intro providers
  induction providers with
  | nil => intro r _; rfl
  | cons p rest ih =>
    intro r h
    have hp : isRpcSuccess (call p) = false := h p (List.mem_cons_self _ _)
    have hstep : sequentialGo call (p :: rest) (some r) =
        ((sequentialGo call rest (some (call p))).1,
          p :: (sequentialGo call rest (some (call p))).2) := by
      cases hcp : call p with
      | ok j =>
        cases j with
        | Result v => rw [hcp] at hp; simp [isRpcSuccess] at hp
        | Error c m => simp [sequentialGo, hcp]
      | error e => simp [sequentialGo, hcp]
    rw [hstep, ih (call p) (fun q hq => h q (List.mem_cons_of_mem _ hq))]
    rw [List.map_cons, List.getLastD_cons]

theorem sequentialGo_first_success {T : Type} (call : RpcNodeProvider → Outcome T) :
    ∀ (providers : List RpcNodeProvider) (last : Option (Outcome T))
      (p : RpcNodeProvider) (rest : List RpcNodeProvider),
      providers.dropWhile (fun q => !isRpcSuccess (call q)) = p :: rest →
      sequentialGo call providers last =
        (some (call p),
          providers.takeWhile (fun q => !isRpcSuccess (call q)) ++ [p]) := by
  intro providers
  induction providers with
  | nil => intro last p rest h; simp [List.dropWhile] at h
  | cons q qs ih =>
    intro last p rest h
    cases hq : isRpcSuccess (call q) with
    | true =>
      rw [List.dropWhile_cons, hq] at h
      simp only [Bool.not_true, Bool.false_eq_true, if_false,
        List.cons.injEq] at h
      obtain ⟨hqp, hrest⟩ := h
      subst hqp
      have hv : ∃ v, call q = Except.ok (JsonRpcResult.Result v) := by
        cases hcq : call q with
        | ok j =>
          cases j with
          | Result v => exact ⟨v, rfl⟩
          | Error c m => rw [hcq] at hq; simp [isRpcSuccess] at hq
        | error e => rw [hcq] at hq; simp [isRpcSuccess] at hq
      obtain ⟨v, hv⟩ := hv
      have hgo : sequentialGo call (q :: qs) last =
          (some (Except.ok (JsonRpcResult.Result v)), [q]) := by
        simp [sequentialGo, hv]
      rw [hgo, hv, List.takeWhile_cons, hq]
      simp
    | false =>
      rw [List.dropWhile_cons, hq] at h
      simp only [Bool.not_false, if_true] at h
      have hstep : sequentialGo call (q :: qs) last =
          ((sequentialGo call qs (some (call q))).1,
            q :: (sequentialGo call qs (some (call q))).2) := by
        cases hcq : call q with
        | ok j =>
          cases j with
          | Result v => rw [hcq] at hq; simp [isRpcSuccess] at hq
          | Error c m => simp [sequentialGo, hcq]
        | error e => simp [sequentialGo, hcq]
      rw [hstep, ih (some (call q)) p rest h]
      rw [List.takeWhile_cons, hq]
      simp

/-! ### The first-minimum property of `minByKey` -/

theorem foldl_min_first {T K : Type} [LinearOrder K] (f : T → K) :
    ∀ (xs : List T) (x : T),
      ∃ l1 l2,
        x :: xs =
          l1 ++ (List.foldl (fun m y => if f y < f m then y else m) x xs) :: l2 ∧
        (∀ w ∈ l1,
          f (List.foldl (fun m y => if f y < f m then y else m) x xs) < f w) ∧
        ∀ w ∈ x :: xs,
          f (List.foldl (fun m y => if f y < f m then y else m) x xs) ≤ f w := by
  intro xs
  induction xs with
  | nil =>
    intro x
    refine ⟨[], [], by simp, by simp, ?_⟩
    intro w hw
    rcases (List.mem_cons).1 hw with he | he
    · rw [he]
      exact le_rfl
    · exact absurd he (List.not_mem_nil _)
  | cons y ys ih =>
    intro x
    by_cases hyx : f y < f x
    · have hfold : List.foldl (fun m y => if f y < f m then y else m) x (y :: ys) =
          List.foldl (fun m y => if f y < f m then y else m) y ys := by
        simp [List.foldl_cons, if_pos hyx]
      obtain ⟨l1, l2, hdec, hlt, hle⟩ := ih y
      rw [hfold]
      refine ⟨x :: l1, l2, by rw [List.cons_append, ← hdec], ?_, ?_⟩
      · intro w hw
        rcases (List.mem_cons).1 hw with he | he
        · rw [he]
          exact lt_of_le_of_lt (hle y (List.mem_cons_self _ _)) hyx
        · exact hlt w he
      · intro w hw
        rcases (List.mem_cons).1 hw with he | he
        · rw [he]
          exact le_of_lt (lt_of_le_of_lt (hle y (List.mem_cons_self _ _)) hyx)
        · exact hle w he
    · have hxy : f x ≤ f y := le_of_not_lt hyx
      have hfold : List.foldl (fun m y => if f y < f m then y else m) x (y :: ys) =
          List.foldl (fun m y => if f y < f m then y else m) x ys := by
        simp [List.foldl_cons, if_neg hyx]
      obtain ⟨l1, l2, hdec, hlt, hle⟩ := ih x
      rw [hfold]
      cases l1 with
      | nil =>
        simp only [List.nil_append] at hdec
        obtain ⟨hrx, hl2⟩ := List.cons.inj hdec
        refine ⟨[], y :: ys, ?_, by simp, ?_⟩
        · rw [List.nil_append, ← hrx]
        · intro w hw
          rcases (List.mem_cons).1 hw with he | he
          · rw [he, ← hrx]
          · rcases (List.mem_cons).1 he with he' | he'
            · rw [he', ← hrx]
              exact hxy
            · exact hle w (List.mem_cons_of_mem _ he')
      | cons a l1' =>
        simp only [List.cons_append] at hdec
        obtain ⟨hax, hys⟩ := List.cons.inj hdec
        refine ⟨x :: y :: l1', l2, ?_, ?_, ?_⟩
        · rw [List.cons_append, List.cons_append, ← hys]
        · intro w hw
          have hrx : f (List.foldl (fun m y => if f y < f m then y else m) x ys) < f x := by
            have := hlt a (List.mem_cons_self _ _)
            rw [← hax] at this
            exact this
          rcases (List.mem_cons).1 hw with he | he
          · rw [he]; exact hrx
          · rcases (List.mem_cons).1 he with he' | he'
            · rw [he']
              exact lt_of_lt_of_le hrx hxy
            · exact hlt w (List.mem_cons_of_mem _ he')
        · intro w hw
          rcases (List.mem_cons).1 hw with he | he
          · rw [he]
            exact hle x (List.mem_cons_self _ _)
          · rcases (List.mem_cons).1 he with he' | he'
            · rw [he']
              exact le_trans (hle x (List.mem_cons_self _ _)) hxy
            · exact hle w (List.mem_cons_of_mem _ he')

theorem minByKey_first {T K : Type} [LinearOrder K] (f : T → K)
    (values : List T) (hne : values ≠ []) :
    ∃ v l1 l2, minByKey f values = some v ∧ values = l1 ++ v :: l2 ∧
      (∀ w ∈ l1, f v < f w) ∧ ∀ w ∈ values, f v ≤ f w := by
  cases values with
  | nil => exact absurd rfl hne
  | cons x xs =>
    obtain ⟨l1, l2, hdec, hlt, hle⟩ := foldl_min_first f xs x
    exact ⟨_, l1, l2, rfl, hdec, hlt, hle⟩

theorem getLast?_cons_eq_getLastD {α : Type} :
    ∀ (l : List α) (a : α), (a :: l).getLast? = some (l.getLastD a)
  | [], _ => rfl
  | b :: l, a => by
    rw [List.getLast?_cons_cons, getLast?_cons_eq_getLastD l b,
      List.getLastD_cons]

theorem sequentialGo_ne_none {T : Type} (call : RpcNodeProvider → Outcome T) :
    ∀ (providers : List RpcNodeProvider) (r : Outcome T),
      (sequentialGo call providers (some r)).1 ≠ none := by
  intro providers
  induction providers with
  | nil => intro r; simp [sequentialGo]
  | cons p rest ih =>
    intro r
    cases hcp : call p with
    | ok j =>
      cases j with
      | Result v => simp [sequentialGo, hcp]
      | Error c m =>
        have : sequentialGo call (p :: rest) (some r) =
            ((sequentialGo call rest (some (call p))).1,
              p :: (sequentialGo call rest (some (call p))).2) := by
          simp [sequentialGo, hcp]
        rw [this]
        exact ih (call p)
    | error e =>
      have : sequentialGo call (p :: rest) (some r) =
          ((sequentialGo call rest (some (call p))).1,
            p :: (sequentialGo call rest (some (call p))).2) := by
        simp [sequentialGo, hcp]
      rw [this]
      exact ih (call p)

theorem mem_extractOk {T : Type} :
    ∀ {l : List (RpcNodeProvider × Outcome T)} {p : RpcNodeProvider} {v : T},
      (p, v) ∈ extractOk l ↔
        (p, Except.ok (JsonRpcResult.Result v)) ∈ l := by
  intro l
  induction l with
  | nil => intro p v; simp [extractOk]
  | cons head rest ih =>
    intro p v
    obtain ⟨q, r⟩ := head
    cases r with
    | ok j =>
      cases j with
      | Result w =>
        simp only [extractOk, List.mem_cons, ih, Prod.mk.injEq,
          Except.ok.injEq, JsonRpcResult.Result.injEq]
      | Error c m =>
        simp only [extractOk, List.mem_cons, ih, Prod.mk.injEq]
        constructor
        · intro h; exact Or.inr h
        · rintro (⟨_, h⟩ | h)
          · exact absurd h.symm (by simp)
          · exact h
    | error e =>
      simp only [extractOk, List.mem_cons, ih, Prod.mk.injEq]
      constructor
      · intro h; exact Or.inr h
      · rintro (⟨_, h⟩ | h)
        · exact absurd h.symm (by simp)
        · exact h

theorem extractOk_const {T : Type} {v : T} :
    ∀ {l : List (RpcNodeProvider × Outcome T)},
      (∀ pr ∈ l, pr.2 = Except.ok (JsonRpcResult.Result v)) →
      extractOk l = l.map (fun pr => (pr.1, v)) := by
  intro l
  induction l with
  | nil => intro _; rfl
  | cons head rest ih =>
    intro h
    obtain ⟨p, r⟩ := head
    have hr := h (p, r) (List.mem_cons_self _ _)
    simp only at hr
    subst hr
    simp only [extractOk, List.map_cons]
    rw [ih (fun pr hpr => h pr (List.mem_cons_of_mem _ hpr))]

theorem keys_extractOk_sublist {T : Type} :
    ∀ (l : List (RpcNodeProvider × Outcome T)),
      List.Sublist ((extractOk l).map Prod.fst) (l.map Prod.fst) := by
  intro l
  induction l with
  | nil => simp [extractOk]
  | cons head rest ih =>
    obtain ⟨p, r⟩ := head
    cases r with
    | ok j =>
      cases j with
      | Result v =>
        simp only [extractOk, List.map_cons]
        exact List.Sublist.cons₂ _ ih
      | Error c m =>
        simp only [extractOk, List.map_cons]
        exact List.Sublist.cons _ ih
    | error e =>
      simp only [extractOk, List.map_cons]
      exact List.Sublist.cons _ ih

theorem extractOk_ne_nil {T : Type} {l : List (RpcNodeProvider × Outcome T)}
    (hne : l ≠ []) (hsucc : ∀ pr ∈ l, isRpcSuccess pr.2 = true) :
    extractOk l ≠ [] := by
  intro h
  have := wrapOk_extractOk hsucc
  rw [h] at this
  exact hne (this.symm.trans rfl)

/-! ### Claim theorems -/

/-- C9: constructing a `MultiCallResults` from zero pairs, and running
fallback dispatch on an empty provider list, hit the panic path (modelled as
`none`), and this panic occurs if and only if the input is empty. -/
theorem C9_empty_input_panics {T : Type}
    (l : List (RpcNodeProvider × Outcome T))
    (call : RpcNodeProvider → Outcome T)
    (providers : List RpcNodeProvider) :
    (MultiCallResults.from_non_empty_iter l = none ↔ l = []) ∧
    ((sequential_call_until_ok call providers).1 = none ↔ providers = []) := by
  constructor
  · rw [MultiCallResults.from_non_empty_iter]
    by_cases h : (fromIterMap l).isEmpty
    · rw [if_pos h]
      simp only [true_iff]
      exact (fromIterMap_eq_nil_iff l).1 (List.isEmpty_iff.1 h)
    · rw [if_neg h]
      constructor
      · intro hc
        exact Option.noConfusion hc
      · intro hl
        subst hl
        exact absurd rfl h
  · cases providers with
    | nil =>
      constructor
      · intro _; rfl
      · intro _; rfl
    | cons p rest =>
      constructor
      · intro hc
        exfalso
        cases hcp : call p with
        | ok j =>
          cases j with
          | Result v =>
            rw [sequential_call_until_ok] at hc
            simp [sequentialGo, hcp] at hc
          | Error c m =>
            have hstep : sequential_call_until_ok call (p :: rest) =
                ((sequentialGo call rest (some (call p))).1,
                  p :: (sequentialGo call rest (some (call p))).2) := by
              simp [sequential_call_until_ok, sequentialGo, hcp]
            rw [hstep] at hc
            exact sequentialGo_ne_none call rest (call p) hc
        | error e =>
          have hstep : sequential_call_until_ok call (p :: rest) =
              ((sequentialGo call rest (some (call p))).1,
                p :: (sequentialGo call rest (some (call p))).2) := by
            simp [sequential_call_until_ok, sequentialGo, hcp]
          rw [hstep] at hc
          exact sequentialGo_ne_none call rest (call p) hc
      · intro hc
        exact List.noConfusion hc

/-- C5: if every provider's outcome in a non-empty outcome set is a JSON-RPC
success with the same value `v`, `reduce_with_equality` returns `Ok(v)`, not
an error. -/
theorem C5_unanimous_value {T : Type} [DecidableEq T] (s : MultiCallResults T)
    (v : T) (hne : s.results ≠ [])
    (h : ∀ pr ∈ s.results, pr.2 = Except.ok (JsonRpcResult.Result v)) :
    reduce_with_equality s = some (.ok v) := by
  have hsucc : ∀ pr ∈ s.results, isRpcSuccess pr.2 = true := by
    intro pr hpr
    rw [h pr hpr]
    rfl
  have hall := all_ok_of_all_success hsucc
  have hext : extractOk s.results = s.results.map (fun pr => (pr.1, v)) :=
    extractOk_const h
  rw [hext] at hall
  cases hs : s.results with
  | nil => exact absurd hs hne
  | cons pr0 tl =>
    rw [hs] at hall
    simp only [reduce_with_equality]
    rw [hall]
    simp
    intro x x1 x2 x3 _ _ hv1
    exact hv1.symm

/-- C5 witness: a concrete two-provider set agreeing on the value 42. -/
theorem C5_unanimous_value_witness :
    reduce_with_equality
      (MultiCallResults.mk [(1, Except.ok (JsonRpcResult.Result 42)),
        (2, Except.ok (JsonRpcResult.Result (42 : Nat)))]) =
      some (.ok 42) :=
  C5_unanimous_value _ 42 (by decide) (by decide)

/-- C6: on a non-empty all-success outcome set, `reduce_with_min_by_key`
returns the success value whose extracted key is minimal, ties broken by
provider iteration order (the returned value occurs in the value list with
only strictly larger keys before it and no smaller key anywhere). -/
theorem C6_min_by_key {T K : Type} [LinearOrder K] (key : T → K)
    (s : MultiCallResults T) (hne : s.results ≠ [])
    (hsucc : ∀ pr ∈ s.results, isRpcSuccess pr.2 = true) :
    ∃ v l1 l2, reduce_with_min_by_key key s = some (.ok v) ∧
      (extractOk s.results).map Prod.snd = l1 ++ v :: l2 ∧
      (∀ w ∈ l1, key v < key w) ∧
      ∀ w ∈ (extractOk s.results).map Prod.snd, key v ≤ key w := by
  have hall := all_ok_of_all_success hsucc
  have hvne : (extractOk s.results).map Prod.snd ≠ [] := by
    intro hx
    exact extractOk_ne_nil hne hsucc (List.map_eq_nil_iff.1 hx)
  obtain ⟨v, l1, l2, hmin, hdec, hlt, hle⟩ :=
    minByKey_first key ((extractOk s.results).map Prod.snd) hvne
  refine ⟨v, l1, l2, ?_, hdec, hlt, hle⟩
  simp only [reduce_with_min_by_key]
  rw [hall]
  simp [hmin]

/-- C6 witness: derived keys {5, 3, 9} select the success with key 3. -/
theorem C6_min_by_key_witness :
    (∃ v l1 l2,
      reduce_with_min_by_key (id : Nat → Nat)
        (MultiCallResults.mk [(1, Except.ok (JsonRpcResult.Result 5)),
          (2, Except.ok (JsonRpcResult.Result 3)),
          (3, Except.ok (JsonRpcResult.Result 9))]) = some (.ok v) ∧
      (extractOk (MultiCallResults.mk
          [(1, Except.ok (JsonRpcResult.Result 5)),
            (2, Except.ok (JsonRpcResult.Result 3)),
            (3, Except.ok (JsonRpcResult.Result (9 : Nat)))]).results).map
          Prod.snd = l1 ++ v :: l2 ∧
      (∀ w ∈ l1, id v < id w) ∧
      ∀ w ∈ (extractOk (MultiCallResults.mk
          [(1, Except.ok (JsonRpcResult.Result 5)),
            (2, Except.ok (JsonRpcResult.Result 3)),
            (3, Except.ok (JsonRpcResult.Result (9 : Nat)))]).results).map
          Prod.snd, id v ≤ id w) ∧
    reduce_with_min_by_key (id : Nat → Nat)
      (MultiCallResults.mk [(1, Except.ok (JsonRpcResult.Result 5)),
        (2, Except.ok (JsonRpcResult.Result 3)),
        (3, Except.ok (JsonRpcResult.Result 9))]) = some (.ok 3) :=
  ⟨C6_min_by_key id _ (by decide) (by decide), by decide⟩

/-- C10: if any provider's outcome is a non-success, neither reduction
returns `Ok`: both `reduce_with_equality` and `reduce_with_min_by_key`
return the (same) `all_ok` classification error. -/
theorem C10_error_vetoes {T K : Type} [DecidableEq T] [LinearOrder K]
    (key : T → K) (s : MultiCallResults T)
    (hns : ∃ pr ∈ s.results, isRpcSuccess pr.2 = false) :
    ∃ e, reduce_with_equality s = some (.error e) ∧
      reduce_with_min_by_key key s = some (.error e) := by
  cases hall : all_ok s with
  | none => exact absurd hall (allOkGo_ne_none s.results [] none trivial)
  | some x =>
    cases x with
    | ok l =>
      obtain ⟨pr, hpr, hfalse⟩ := hns
      have hsucc := allOkGo_ok_imp s.results [] none l hall pr hpr
      rw [hsucc] at hfalse
      exact Bool.noConfusion hfalse
    | error e =>
      refine ⟨e, ?_, ?_⟩
      · simp only [reduce_with_equality]
        rw [hall]
      · simp only [reduce_with_min_by_key]
        rw [hall]

/-- C10 witness: one JSON-RPC error vetoes another provider's success. -/
theorem C10_error_vetoes_witness :
    ∃ e, reduce_with_equality
        (MultiCallResults.mk [(1, Except.ok (JsonRpcResult.Result (7 : Nat))),
          (2, Except.ok (JsonRpcResult.Error 1 ("err")))]) =
        some (.error e) ∧
      reduce_with_min_by_key (id : Nat → Nat)
        (MultiCallResults.mk [(1, Except.ok (JsonRpcResult.Result 7)),
          (2, Except.ok (JsonRpcResult.Error 1 ("err")))]) =
        some (.error e) :=
  C10_error_vetoes id _ (by decide)

/-- C8: building a `MultiCallResults` from any permutation of the same
(provider, outcome) pairs yields the same value, hence classification plus
either reduction produce the same verdict regardless of the order in which
the outcome set was assembled. -/
theorem C8_order_independence {T K : Type} [DecidableEq T] [LinearOrder K]
    (key : T → K) (l1 l2 : List (RpcNodeProvider × Outcome T))
    (hnd : (l1.map Prod.fst).Nodup) (hp : List.Perm l1 l2) :
    MultiCallResults.from_non_empty_iter l1 =
      MultiCallResults.from_non_empty_iter l2 ∧
    (MultiCallResults.from_non_empty_iter l1).map reduce_with_equality =
      (MultiCallResults.from_non_empty_iter l2).map reduce_with_equality ∧
    (MultiCallResults.from_non_empty_iter l1).map
        (reduce_with_min_by_key key) =
      (MultiCallResults.from_non_empty_iter l2).map
        (reduce_with_min_by_key key) := by
  have hmap := fromIterMap_eq_of_perm hnd hp
  have h1 : MultiCallResults.from_non_empty_iter l1 =
      MultiCallResults.from_non_empty_iter l2 := by
    rw [MultiCallResults.from_non_empty_iter,
      MultiCallResults.from_non_empty_iter, hmap]
  exact ⟨h1, by rw [h1], by rw [h1]⟩

/-- C8 witness: two insertion orders of the same two outcomes. -/
theorem C8_order_independence_witness :
    MultiCallResults.from_non_empty_iter
        [(1, Except.ok (JsonRpcResult.Result (5 : Nat))),
          (2, Except.error ⟨0, ("down")⟩)] =
      MultiCallResults.from_non_empty_iter
        [(2, Except.error ⟨0, ("down")⟩),
          (1, Except.ok (JsonRpcResult.Result 5))] ∧
    (MultiCallResults.from_non_empty_iter
        [(1, Except.ok (JsonRpcResult.Result (5 : Nat))),
          (2, Except.error ⟨0, ("down")⟩)]).map reduce_with_equality =
      (MultiCallResults.from_non_empty_iter
        [(2, Except.error ⟨0, ("down")⟩),
          (1, Except.ok (JsonRpcResult.Result 5))]).map
        reduce_with_equality ∧
    (MultiCallResults.from_non_empty_iter
        [(1, Except.ok (JsonRpcResult.Result (5 : Nat))),
          (2, Except.error ⟨0, ("down")⟩)]).map
        (reduce_with_min_by_key (id : Nat → Nat)) =
      (MultiCallResults.from_non_empty_iter
        [(2, Except.error ⟨0, ("down")⟩),
          (1, Except.ok (JsonRpcResult.Result 5))]).map
        (reduce_with_min_by_key (id : Nat → Nat)) :=
  C8_order_independence id _ _ (by decide) (by decide)

/-- C1 counterexample: on providers [1 (transport failure), 2 (JSON-RPC
error), 3 (success)], `sequential_call_until_ok` does NOT stop at provider
2's transport-successful JSON-RPC error: it continues, invokes provider 3,
and returns provider 3's success. -/
theorem C1_counterexample :
    sequential_call_until_ok exCall1 [1, 2, 3] =
      (some (Except.ok (JsonRpcResult.Result 42)), [1, 2, 3]) ∧
    (sequential_call_until_ok exCall1 [1, 2, 3]).1 ≠
      some (Except.ok (JsonRpcResult.Error (-32000) ("nonce too low"))) ∧
    3 ∈ (sequential_call_until_ok exCall1 [1, 2, 3]).2 := by
  decide

/-- C1 amended: fallback dispatch stops at (and returns) the first JSON-RPC
success, having invoked exactly the providers up to and including it; a
transport-successful JSON-RPC error does not stop the search. If no provider
returns a JSON-RPC success, every provider is invoked and the last outcome
(JSON-RPC error or transport failure) is returned. -/
theorem C1_amended {T : Type} (call : RpcNodeProvider → Outcome T)
    (providers : List RpcNodeProvider) :
    (providers.dropWhile (fun q => !isRpcSuccess (call q)) = [] →
      sequential_call_until_ok call providers =
        ((providers.map call).getLast?, providers)) ∧
    (∀ p rest,
      providers.dropWhile (fun q => !isRpcSuccess (call q)) = p :: rest →
      sequential_call_until_ok call providers =
        (some (call p),
          providers.takeWhile (fun q => !isRpcSuccess (call q)) ++ [p])) := by
  constructor
  · intro hdrop
    have hall : ∀ q ∈ providers, isRpcSuccess (call q) = false := by
      have hd := List.dropWhile_eq_nil_iff.1 hdrop
      intro q hq
      have hb := hd q hq
      simpa using hb
    cases providers with
    | nil => rfl
    | cons p rest =>
      have hp : isRpcSuccess (call p) = false :=
        hall p (List.mem_cons_self _ _)
      have hstep : sequential_call_until_ok call (p :: rest) =
          ((sequentialGo call rest (some (call p))).1,
            p :: (sequentialGo call rest (some (call p))).2) := by
        cases hcp : call p with
        | ok j =>
          cases j with
          | Result v => rw [hcp] at hp; simp [isRpcSuccess] at hp
          | Error c m => simp [sequential_call_until_ok, sequentialGo, hcp]
        | error e => simp [sequential_call_until_ok, sequentialGo, hcp]
      rw [hstep, sequentialGo_no_success call rest (call p)
        (fun q hq => hall q (List.mem_cons_of_mem _ hq))]
      rw [List.map_cons, getLast?_cons_eq_getLastD]
  · intro p rest hdrop
    exact sequentialGo_first_success call providers none p rest hdrop

/-- C1 amended witness: with [10 (transport failure), 20 (success)], the
success of provider 20 is returned after invoking both; with no success
anywhere, the last failure is returned after invoking all providers. -/
theorem C1_amended_witness :
    sequential_call_until_ok exCall2 [10, 20] =
      (some (Except.ok (JsonRpcResult.Result 7)), [10, 20]) ∧
    sequential_call_until_ok exCallFail [10, 20] =
      (some (Except.error ⟨1, ("late")⟩), [10, 20]) := by
  constructor
  · have h := (C1_amended exCall2 [10, 20]).2 20 [] (by decide)
    rw [h]
    decide
  · have h := (C1_amended exCallFail [10, 20]).1 (by decide)
    rw [h]
    decide

/-- C2 counterexample: `eth_get_transaction_count` returns the raw,
unreduced outcome set — here one still containing the two distinct
per-provider counts 5 and 3 — not a reconciled value or typed error; the
minimum reduction (which would give 3) is not applied inside the
operation. -/
theorem C2_counterexample :
    eth_get_transaction_count [1, 2] exCallTC =
      some (MultiCallResults.mk
        [(1, Except.ok (JsonRpcResult.Result 5)),
          (2, Except.ok (JsonRpcResult.Result 3))]) ∧
    reduce_with_min_by_key (id : Nat → Nat)
      (MultiCallResults.mk [(1, Except.ok (JsonRpcResult.Result 5)),
        (2, Except.ok (JsonRpcResult.Result 3))]) = some (.ok 3) := by
  decide

/-- C2 amended: `eth_get_transaction_count` broadcast-dispatches
`eth_getTransactionCount` to every provider and returns the raw outcome
set, one entry per provider in provider order; applying the minimum
reduction is left to its caller. -/
theorem C2_amended {T : Type} (providers : List RpcNodeProvider)
    (call : String → RpcNodeProvider → Outcome T)
    (hne : providers ≠ []) (hsorted : providers.Pairwise (· < ·)) :
    eth_get_transaction_count providers call =
      some (MultiCallResults.mk (providers.map
        (fun p => (p, call ("eth_getTransactionCount") p)))) := by
  rw [eth_get_transaction_count, parallel_call,
    MultiCallResults.from_non_empty_iter]
  have hsk : SortedKeys (providers.map
      (fun p => (p, call ("eth_getTransactionCount") p))) := by
    rw [SortedKeys]
    exact (List.pairwise_map).2 (hsorted.imp (fun h => h))
  have hmapne : providers.map
      (fun p => (p, call ("eth_getTransactionCount") p)) ≠ [] := by
    intro hx
    exact hne (List.map_eq_nil_iff.1 hx)
  rw [fromIterMap_sorted_id hsk]
  rw [if_neg (by simpa [List.isEmpty_iff] using hmapne)]

/-- C2 amended witness: the raw two-entry outcome set for two providers. -/
theorem C2_amended_witness :
    eth_get_transaction_count [1, 2] exCallTC =
      some (MultiCallResults.mk ([1, 2].map
        (fun p => (p, exCallTC ("eth_getTransactionCount") p)))) :=
  C2_amended [1, 2] exCallTC (by decide) (by decide)

theorem allOkGo_exists_inconsistent {T : Type} :
    ∀ (pending : List (RpcNodeProvider × Outcome T))
      (succ : List (RpcNodeProvider × T)) (fp : RpcNodeProvider)
      (fe : Outcome T),
      (∃ pr ∈ pending, isRpcSuccess pr.2 = false ∧
        are_errors_consistent fe pr.2 = false) →
      ∃ m', allOkGo pending succ (some (fp, fe)) =
        some (.error (.InconsistentResults m')) := by
  intro pending
  induction pending with
  | nil =>
    intro succ fp fe hex
    obtain ⟨pr, hpr, _⟩ := hex
    exact absurd hpr (List.not_mem_nil _)
  | cons head rest ih =>
    intro succ fp fe hex
    obtain ⟨p, r⟩ := head
    cases hr : isRpcSuccess r with
    | true =>
      have hrr : ∃ v, r = Except.ok (JsonRpcResult.Result v) := by
        cases r with
        | ok j =>
          cases j with
          | Result v => exact ⟨v, rfl⟩
          | Error c m => simp [isRpcSuccess] at hr
        | error e => simp [isRpcSuccess] at hr
      obtain ⟨v, rfl⟩ := hrr
      refine ih _ fp fe ?_
      obtain ⟨pr, hpr, hns, hcon⟩ := hex
      rcases (List.mem_cons).1 hpr with he | he
      · rw [he] at hns; simp [isRpcSuccess] at hns
      · exact ⟨pr, he, hns, hcon⟩
    | false =>
      have hstep : allOkGo ((p, r) :: rest) succ (some (fp, fe)) =
          if are_errors_consistent fe r = true then
            allOkGo rest succ (some (fp, fe))
          else some (.error (.InconsistentResults
            ⟨fromIterMap [(fp, fe), (p, r)]⟩)) := by
        cases r with
        | ok j =>
          cases j with
          | Result v => simp [isRpcSuccess] at hr
          | Error c m => rfl
        | error e => rfl
      rw [hstep]
      by_cases hc : are_errors_consistent fe r = true
      · rw [if_pos hc]
        refine ih _ fp fe ?_
        obtain ⟨pr, hpr, hns, hcon⟩ := hex
        rcases (List.mem_cons).1 hpr with he | he
        · rw [he] at hcon
          rw [hc] at hcon
          exact Bool.noConfusion hcon
        · exact ⟨pr, he, hns, hcon⟩
      · rw [if_neg hc]
        exact ⟨_, rfl⟩

theorem allOkGo_none_exists_incons {T : Type} :
    ∀ (pending : List (RpcNodeProvider × Outcome T))
      (succ : List (RpcNodeProvider × T)) (fp : RpcNodeProvider)
      (fe : Outcome T),
      firstNonSuccess pending = some (fp, fe) →
      (∃ pr ∈ pending, isRpcSuccess pr.2 = false ∧
        are_errors_consistent fe pr.2 = false) →
      ∃ m', allOkGo pending succ none =
        some (.error (.InconsistentResults m')) := by
  intro pending
  induction pending with
  | nil => intro succ fp fe hfirst _; simp [firstNonSuccess] at hfirst
  | cons head rest ih =>
    intro succ fp fe hfirst hex
    obtain ⟨p, r⟩ := head
    cases hr : isRpcSuccess r with
    | true =>
      have hrr : ∃ v, r = Except.ok (JsonRpcResult.Result v) := by
        cases r with
        | ok j =>
          cases j with
          | Result v => exact ⟨v, rfl⟩
          | Error c m => simp [isRpcSuccess] at hr
        | error e => simp [isRpcSuccess] at hr
      obtain ⟨v, rfl⟩ := hrr
      have hfirst' : firstNonSuccess rest = some (fp, fe) := by
        simp [firstNonSuccess, List.find?, isRpcSuccess] at hfirst ⊢
        exact hfirst
      refine ih _ fp fe hfirst' ?_
      obtain ⟨pr, hpr, hns, hcon⟩ := hex
      rcases (List.mem_cons).1 hpr with he | he
      · rw [he] at hns; simp [isRpcSuccess] at hns
      · exact ⟨pr, he, hns, hcon⟩
    | false =>
      have hwit : (p, r) = (fp, fe) := by
        have : firstNonSuccess ((p, r) :: rest) = some (p, r) := by
          simp [firstNonSuccess, List.find?, hr]
        rw [this] at hfirst
        exact Option.some.inj hfirst
      obtain ⟨hp1, hp2⟩ := Prod.mk.inj hwit
      have hstep : allOkGo ((p, r) :: rest) succ none =
          allOkGo rest succ (some (p, r)) := by
        cases r with
        | ok j =>
          cases j with
          | Result v => simp [isRpcSuccess] at hr
          | Error c m => rfl
        | error e => rfl
      rw [hstep, hp1, hp2]
      refine allOkGo_exists_inconsistent rest succ fp fe ?_
      obtain ⟨pr, hpr, hns, hcon⟩ := hex
      rcases (List.mem_cons).1 hpr with he | he
      · exfalso
        rw [he, hp2] at hcon
        rw [hp2] at hr
        rw [are_errors_consistent_rfl hr] at hcon
        exact Bool.noConfusion hcon
      · exact ⟨pr, he, hns, hcon⟩

/-- C3: when classification finds a non-success outcome that is not
error-equivalent to the first-seen error witness, `all_ok` returns
`InconsistentResults`, and its evidence map has exactly two entries — the
first non-success outcome (the error witness) and one later conflicting
non-success outcome — never the whole outcome set. -/
theorem C3_two_witness_evidence {T : Type} (s : MultiCallResults T)
    (fp p0 : RpcNodeProvider) (fe r0 : Outcome T)
    (hsort : SortedKeys s.results)
    (hfirst : firstNonSuccess s.results = some (fp, fe))
    (hmem0 : (p0, r0) ∈ s.results) (hns0 : isRpcSuccess r0 = false)
    (hinc0 : are_errors_consistent fe r0 = false) :
    ∃ m p r, all_ok s = some (.error (.InconsistentResults m)) ∧
      m.results = [(fp, fe), (p, r)] ∧ m.results.length = 2 ∧
      (fp, fe) ∈ s.results ∧ (p, r) ∈ s.results ∧
      isRpcSuccess fe = false ∧ isRpcSuccess r = false ∧
      are_errors_consistent fe r = false := by
  obtain ⟨m', hm'⟩ := allOkGo_none_exists_incons s.results [] fp fe hfirst
    ⟨(p0, r0), hmem0, hns0, hinc0⟩
  obtain ⟨fp', fe', p, r, h1, h2, h3, h4, h5⟩ :=
    allOkGo_none_inconsistent s.results [] m' hsort hm'
  rw [hfirst] at h1
  obtain ⟨he1, he2⟩ := Prod.mk.inj (Option.some.inj h1)
  refine ⟨m', p, r, hm', ?_, ?_, List.mem_of_find?_eq_some hfirst, h2, ?_,
    h3, ?_⟩
  · rw [h5, he1, he2]
  · rw [h5]
    rfl
  · have hfind := List.find?_some hfirst
    simpa using hfind
  · rw [he2]
    exact h4

/-- C3 witness: concrete two-provider disagreement between a JSON-RPC error
witness (provider 1) and a transport failure (provider 2). -/
theorem C3_two_witness_evidence_witness :
    ∃ m p r, all_ok sC3 = some (.error (.InconsistentResults m)) ∧
      m.results = [(1, Except.ok (JsonRpcResult.Error (-32000) ("x"))),
        (p, r)] ∧ m.results.length = 2 ∧
      (1, Except.ok (JsonRpcResult.Error (-32000) ("x"))) ∈ sC3.results ∧
      (p, r) ∈ sC3.results ∧
      isRpcSuccess ((Except.ok (JsonRpcResult.Error (-32000) ("x")) :
        Outcome Nat)) = false ∧
      isRpcSuccess r = false ∧
      are_errors_consistent
        (Except.ok (JsonRpcResult.Error (-32000) ("x"))) r = false :=
  C3_two_witness_evidence sC3 1 2
    (Except.ok (JsonRpcResult.Error (-32000) ("x")))
    (Except.error ⟨0, ("t")⟩) (by decide) (by decide) (by decide)
    (by decide) (by decide)

/-- C7: non-success outcomes are consistent only within the same kind with
equal content. If every non-success outcome is the same JSON-RPC error, the
verdict is `ConsistentJsonRpcError` with that code and message; if the set
contains both a JSON-RPC error and a transport failure, the verdict is
`InconsistentResults` — error kinds are never merged. -/
theorem C7_error_kinds {T : Type} (s : MultiCallResults T) (c : Int)
    (msg : String)
    (hns : ∃ pr ∈ s.results, isRpcSuccess pr.2 = false) :
    ((∀ pr ∈ s.results, isRpcSuccess pr.2 = false →
        pr.2 = Except.ok (JsonRpcResult.Error c msg)) →
      all_ok s = some (.error (.ConsistentJsonRpcError c msg))) ∧
    (∀ (e : HttpOutcallError) (p1 p2 : RpcNodeProvider),
      (p1, Except.ok (JsonRpcResult.Error c msg)) ∈ s.results →
      (p2, Except.error e) ∈ s.results →
      ∃ m', all_ok s = some (.error (.InconsistentResults m'))) := by
  constructor
  · intro hsame
    exact allOkGo_none_same_json s.results [] c msg hsame hns
  · intro e p1 p2 hp1 hp2
    cases hall : all_ok s with
    | none => exact absurd hall (allOkGo_ne_none s.results [] none trivial)
    | some x =>
      cases x with
      | ok l =>
        have hsucc :=
          allOkGo_ok_imp s.results [] none l hall (p2, Except.error e) hp2
        simp [isRpcSuccess] at hsucc
      | error err =>
        cases err with
        | InconsistentResults m' => exact ⟨m', rfl⟩
        | ConsistentJsonRpcError c' msg' =>
          exfalso
          obtain ⟨fp, fe, h1, h2, h3⟩ := allOkGo_none_consistent s.results []
            _ hall (fun m' hem => MultiCallError.noConfusion hem)
          have hfe : fe = Except.ok (JsonRpcResult.Error c' msg') := by
            cases fe with
            | ok j =>
              cases j with
              | Result v => simp [allOkFinish] at h2
              | Error c0 m0 =>
                simp only [allOkFinish, Option.some.injEq,
                  Except.error.injEq,
                  MultiCallError.ConsistentJsonRpcError.injEq] at h2
                rw [h2.1, h2.2]
            | error e0 => simp [allOkFinish] at h2
          have hcons := h3 (p2, Except.error e) hp2 (by simp [isRpcSuccess])
          rw [hfe] at hcons
          simp [are_errors_consistent] at hcons
        | ConsistentHttpOutcallError e' =>
          exfalso
          obtain ⟨fp, fe, h1, h2, h3⟩ := allOkGo_none_consistent s.results []
            _ hall (fun m' hem => MultiCallError.noConfusion hem)
          have hfe : fe = Except.error e' := by
            cases fe with
            | ok j =>
              cases j with
              | Result v => simp [allOkFinish] at h2
              | Error c0 m0 => simp [allOkFinish] at h2
            | error e0 =>
              simp only [allOkFinish, Option.some.injEq, Except.error.injEq,
                MultiCallError.ConsistentHttpOutcallError.injEq] at h2
              rw [h2]
          have hcons := h3 (p1, Except.ok (JsonRpcResult.Error c msg)) hp1
            (by simp [isRpcSuccess])
          rw [hfe] at hcons
          simp [are_errors_consistent] at hcons

/-- C7 witness: same JSON-RPC error twice gives the consistent verdict; a
JSON-RPC error against a transport timeout gives `InconsistentResults`. -/
theorem C7_error_kinds_witness :
    all_ok sC7a = some (.error (.ConsistentJsonRpcError (-32000) ("x"))) ∧
    ∃ m', all_ok sC7b = some (.error (.InconsistentResults m')) := by
  constructor
  · exact (C7_error_kinds sC7a (-32000) ("x") (by decide)).1 (by decide)
  · exact (C7_error_kinds sC7b (-32000) ("x") (by decide)).2
      ⟨1, ("timeout")⟩ 1 2 (by decide) (by decide)

/-- C4: on a key-sorted, all-success outcome set whose baseline (first)
success value is contradicted by at least one other provider,
`reduce_with_equality` returns `InconsistentResults` whose evidence is
exactly the providers holding a value different from the baseline plus the
baseline itself, and the evidence size is at least 2 and at most the total
provider count. -/
theorem C4_divergent_evidence {T : Type} [DecidableEq T]
    (s : MultiCallResults T) (bp : RpcNodeProvider) (bv : T)
    (tl : List (RpcNodeProvider × Outcome T))
    (hsort : SortedKeys s.results)
    (hs : s.results = (bp, Except.ok (JsonRpcResult.Result bv)) :: tl)
    (hsucc : ∀ pr ∈ s.results, isRpcSuccess pr.2 = true)
    (hdiff : ∃ p v, (p, Except.ok (JsonRpcResult.Result v)) ∈ tl ∧ v ≠ bv) :
    ∃ m, reduce_with_equality s = some (.error (.InconsistentResults m)) ∧
      2 ≤ m.results.length ∧ m.results.length ≤ s.results.length ∧
      ∀ p o, ((p, o) ∈ m.results ↔
        ((p = bp ∧ o = Except.ok (JsonRpcResult.Result bv)) ∨
          (∃ v, o = Except.ok (JsonRpcResult.Result v) ∧ v ≠ bv ∧
            (p, Except.ok (JsonRpcResult.Result v)) ∈ s.results))) := by
  have hall := all_ok_of_all_success hsucc
  rw [hs] at hall
  simp only [extractOk] at hall
  have hsortl : SortedKeys ((bp, Except.ok (JsonRpcResult.Result bv)) :: tl) := by
    rw [← hs]
    exact hsort
  rw [SortedKeys, List.pairwise_cons] at hsortl
  obtain ⟨hbp, htl⟩ := hsortl
  have htlkeys : (tl.map Prod.fst).Nodup := sortedKeys_nodup_keys htl
  have hsubIncons : List.Sublist
      ((extractOk tl).filter (fun pr => decide (pr.2 ≠ bv))) (extractOk tl) :=
    List.filter_sublist _
  have hkeysSub : List.Sublist
      (((extractOk tl).filter (fun pr => decide (pr.2 ≠ bv))).map Prod.fst)
      (tl.map Prod.fst) :=
    List.Sublist.trans (hsubIncons.map Prod.fst) (keys_extractOk_sublist tl)
  have hkin : ((((extractOk tl).filter
      (fun pr => decide (pr.2 ≠ bv))).map Prod.fst)).Nodup :=
    List.Nodup.sublist hkeysSub htlkeys
  have hbpnot : bp ∉ ((extractOk tl).filter
      (fun pr => decide (pr.2 ≠ bv))).map Prod.fst := by
    intro hmem
    have hmem2 : bp ∈ tl.map Prod.fst := hkeysSub.subset hmem
    obtain ⟨x, hx, hx1⟩ := List.mem_map.1 hmem2
    have hlt := hbp x hx
    rw [hx1] at hlt
    exact lt_irrefl bp hlt
  obtain ⟨pd, vd, hmemd, hvd⟩ := hdiff
  have hmemf : (pd, vd) ∈ (extractOk tl).filter
      (fun pr => decide (pr.2 ≠ bv)) :=
    List.mem_filter.2 ⟨mem_extractOk.2 hmemd, by simpa using hvd⟩
  have hne : (extractOk tl).filter (fun pr => decide (pr.2 ≠ bv)) ≠ [] := by
    intro h0
    rw [h0] at hmemf
    exact absurd hmemf (List.not_mem_nil _)
  have hLkeys : ((((extractOk tl).filter (fun pr => decide (pr.2 ≠ bv)) ++
      [(bp, bv)]).map
      (fun pr => (pr.1, (Except.ok (JsonRpcResult.Result pr.2) : Outcome T)))).map
      Prod.fst).Nodup := by
    rw [List.map_map]
    have hcomp : (Prod.fst ∘ fun pr : RpcNodeProvider × T =>
        (pr.1, (Except.ok (JsonRpcResult.Result pr.2) : Outcome T))) =
        Prod.fst := rfl
    rw [hcomp, List.map_append]
    refine List.Nodup.append hkin (List.nodup_singleton bp) ?_
    intro a ha hb
    simp only [List.map_cons, List.map_nil, List.mem_singleton] at hb
    subst hb
    exact hbpnot ha
  have hred : reduce_with_equality s = some (.error (.InconsistentResults
      ⟨fromIterMap (((extractOk tl).filter (fun pr => decide (pr.2 ≠ bv)) ++
        [(bp, bv)]).map
        (fun pr => (pr.1, (Except.ok (JsonRpcResult.Result pr.2) : Outcome T))))⟩)) := by
    simp only [reduce_with_equality]
    rw [hall]
    dsimp only
    rw [if_neg (by simpa [List.isEmpty_iff] using hne)]
  refine ⟨_, hred, ?_, ?_, ?_⟩
  · rw [show (MultiCallResults.mk (fromIterMap
      (((extractOk tl).filter (fun pr => decide (pr.2 ≠ bv)) ++
        [(bp, bv)]).map
        (fun pr => (pr.1, (Except.ok (JsonRpcResult.Result pr.2) : Outcome T)))))).results =
      fromIterMap (((extractOk tl).filter (fun pr => decide (pr.2 ≠ bv)) ++
        [(bp, bv)]).map
        (fun pr => (pr.1, (Except.ok (JsonRpcResult.Result pr.2) : Outcome T)))) from rfl]
    rw [length_fromIterMap hLkeys]
    have hpos : 0 < ((extractOk tl).filter
        (fun pr => decide (pr.2 ≠ bv))).length :=
      List.length_pos.2 hne
    simp only [List.length_map, List.length_append, List.length_singleton]
    omega
  · rw [show (MultiCallResults.mk (fromIterMap
      (((extractOk tl).filter (fun pr => decide (pr.2 ≠ bv)) ++
        [(bp, bv)]).map
        (fun pr => (pr.1, (Except.ok (JsonRpcResult.Result pr.2) : Outcome T)))))).results =
      fromIterMap (((extractOk tl).filter (fun pr => decide (pr.2 ≠ bv)) ++
        [(bp, bv)]).map
        (fun pr => (pr.1, (Except.ok (JsonRpcResult.Result pr.2) : Outcome T)))) from rfl]
    rw [length_fromIterMap hLkeys]
    have hflen : ((extractOk tl).filter
        (fun pr => decide (pr.2 ≠ bv))).length ≤ (extractOk tl).length :=
      List.Sublist.length_le hsubIncons
    have hext_len : (extractOk tl).length ≤ tl.length := by
      have hkl := List.Sublist.length_le (keys_extractOk_sublist tl)
      simpa using hkl
    rw [hs]
    simp only [List.length_map, List.length_append, List.length_singleton,
      List.length_cons]
    exact Nat.add_le_add_right (le_trans hflen hext_len) 1
  · intro p o
    rw [show (MultiCallResults.mk (fromIterMap
      (((extractOk tl).filter (fun pr => decide (pr.2 ≠ bv)) ++
        [(bp, bv)]).map
        (fun pr => (pr.1, (Except.ok (JsonRpcResult.Result pr.2) : Outcome T)))))).results =
      fromIterMap (((extractOk tl).filter (fun pr => decide (pr.2 ≠ bv)) ++
        [(bp, bv)]).map
        (fun pr => (pr.1, (Except.ok (JsonRpcResult.Result pr.2) : Outcome T)))) from rfl]
    rw [mem_fromIterMap_iff hLkeys]
    constructor
    · intro hmem
      obtain ⟨pr, hpr, hwr⟩ := List.mem_map.1 hmem
      obtain ⟨q, u⟩ := pr
      simp only [Prod.mk.injEq] at hwr
      obtain ⟨hq, ho⟩ := hwr
      subst hq
      rcases List.mem_append.1 hpr with hin | hbase
      · right
        have hfu := List.mem_filter.1 hin
        refine ⟨u, ho.symm, by simpa using hfu.2, ?_⟩
        rw [hs]
        exact List.mem_cons_of_mem _ (mem_extractOk.1 hfu.1)
      · rw [List.mem_singleton] at hbase
        obtain ⟨hq1, hq2⟩ := Prod.mk.inj hbase
        left
        rw [← ho, hq1, hq2]
        exact ⟨rfl, rfl⟩
    · rintro (⟨hp, ho⟩ | ⟨v, ho, hvne, hmem⟩)
      · rw [hp, ho]
        exact List.mem_map.2 ⟨(bp, bv), List.mem_append.2
          (Or.inr (List.mem_singleton.2 rfl)), rfl⟩
      · subst ho
        have hmem' : (p, Except.ok (JsonRpcResult.Result v)) ∈ tl := by
          rw [hs] at hmem
          rcases List.mem_cons.1 hmem with he | he
          · exfalso
            simp only [Prod.mk.injEq, Except.ok.injEq,
              JsonRpcResult.Result.injEq] at he
            exact hvne he.2
          · exact he
        exact List.mem_map.2 ⟨(p, v), List.mem_append.2
          (Or.inl (List.mem_filter.2
            ⟨mem_extractOk.2 hmem', by simpa using hvne⟩)), rfl⟩

/-- C4 witness: baseline 5 contradicted by provider 2's value 3. -/
theorem C4_divergent_evidence_witness :
    ∃ m, reduce_with_equality sC4 = some (.error (.InconsistentResults m)) ∧
      2 ≤ m.results.length ∧ m.results.length ≤ sC4.results.length ∧
      ∀ p o, ((p, o) ∈ m.results ↔
        ((p = 1 ∧ o = Except.ok (JsonRpcResult.Result 5)) ∨
          (∃ v, o = Except.ok (JsonRpcResult.Result v) ∧ v ≠ 5 ∧
            (p, Except.ok (JsonRpcResult.Result v)) ∈ sC4.results))) :=
  C4_divergent_evidence sC4 1 5 [(2, Except.ok (JsonRpcResult.Result 3))]
    (by decide) rfl (by decide) ⟨2, 3, by decide, by decide⟩

end EthRpc
